import Mathlib

set_option maxRecDepth 8192

/-
Verification of the block-sparse orchestration layer (csrc/backend.cc).

The file shallow-embeds the host-side logic of the backend: the transpose-view
synthesizer, the shape normalizer, the bitmask workspace sizing, the descriptor
validation, and the control flow of the five dispatchers (dsd, dds, sdd, ssd,
dss).  External collaborators (the sputnik kernels, torch tensor primitives)
are modelled from the spec where the backend consumes them.

Unit conventions.  The sputnik block-sparse buffers store column indices and
row indices as element offsets: a block in block-column `c` is recorded in the
`indices` buffer as `c * block_size`, and the external RowIndices kernel
produces `r * block_size` for a block in block-row `r`.  This is the only
convention under which the backend's composite sort key
`indices + row_idxs / kBlockSize` equals the spec's `col * 128 + row` key
(otherwise the `row_idxs / kBlockSize` term is identically zero and the
`rows <= 128 * 128` precondition is vacuous), under which the histogram
`indices.histc(kBlockCols, 0, kCols)` bins one block-column per bin, and under
which the expected `offsets_t = [0, 16384, 32768]` of the spec's scenario is
produced.  Descriptors below carry block-level indices (the spec's §3 data
model); the element-offset buffer convention is applied at the boundary by
`sputnikColIndices` / `sputnikRowIndices`.
-/

/-- Inclusive prefix sums with an accumulator (model of torch `cumsum` on a
rank-1 integer tensor). -/
def cumsumFrom (acc : Nat) : List Nat → List Nat
  | [] => []
  | x :: xs => (acc + x) :: cumsumFrom (acc + x) xs

/-- Model of torch `cumsum` along dimension 0. -/
def cumsum (l : List Nat) : List Nat := cumsumFrom 0 l

/-- Modelled from the spec: bin assignment of torch `histc` with `bins` equal
width bins over `[lo, hi]`; values outside the range are not counted, and the
maximum falls into the last bin. -/
def histcBin (bins lo hi v : Nat) : Option Nat :=
  if bins = 0 ∨ hi ≤ lo ∨ v < lo ∨ hi < v then none
  else some (min (bins - 1) ((v - lo) * bins / (hi - lo)))

/-- Modelled from the spec: torch `histc` (the §4.3 step-5 histogram of the
column-index buffer over the block-column bins). -/
def histc (vals : List Nat) (bins lo hi : Nat) : List Nat :=
  (List.range bins).map (fun b => vals.countP (fun v => histcBin bins lo hi v == some b))

/-- Stable insertion of `x` into `l` by an ascending `key`. -/
def insertBy {α : Type} (key : α → Nat) (x : α) : List α → List α
  | [] => [x]
  | y :: ys => if key x < key y then x :: y :: ys else y :: insertBy key x ys

/-- Stable insertion sort by an ascending `key`. -/
def sortBy {α : Type} (key : α → Nat) : List α → List α
  | [] => []
  | x :: xs => insertBy key x (sortBy key xs)

/-- Model of torch `argsort` (ascending): the permutation of positions sorted
by the value at each position.  The sort keys produced by the backend are
distinct whenever two stored blocks differ in (block-row, block-column), so no
property proved below depends on the tie order; `argsort` is modelled as a
stable sort. -/
def argsort (keys : List Nat) : List Nat :=
  sortBy (fun i => keys.getD i 0) (List.range keys.length)

/-- CSR row-pointer replay, rows numbered from `i`: for consecutive pointers
`a, b` the row contributes `b - a` copies of its row index. -/
def rowIndicesFrom : Nat → List Nat → List Nat
  | _, [] => []
  | _, [_] => []
  | i, a :: b :: rest => List.replicate (b - a) i ++ rowIndicesFrom (i + 1) (b :: rest)

/-- Modelled from the spec (§4.3 step 1): the block-row index of every stored
block, obtained by replaying the `offsets` array against the flat block
sequence (the inverse of the CSR row-pointer mapping). -/
def rowIndicesBlocks (offsets : List Nat) : List Nat := rowIndicesFrom 0 offsets

/-- Modelled from the spec: the external `sputnik::block::RowIndices` kernel.
Its output buffer holds, for each stored block, the block's row offset in the
element-offset convention of the sputnik index buffers (block-row index times
`block_size`). -/
def sputnikRowIndices (blockSize : Nat) (offsets : List Nat) : List Nat :=
  (rowIndicesBlocks offsets).map (fun r => r * blockSize)

/-- Modelled from the spec: the caller-side buffer convention for the sparse
`indices` tensor — each stored block's column is recorded as an element offset
(block-column index times `block_size`). -/
def sputnikColIndices (blockSize : Nat) (indices : List Nat) : List Nat :=
  indices.map (fun c => c * blockSize)

/-- The transpose view returned by `transpose` (backend.cc:126-168): the
vector `{indices_t, offsets_t, block_offsets}` of freshly computed buffers. -/
structure TransposeView where
  indices_t : List Nat
  offsets_t : List Nat
  block_offsets : List Nat
deriving DecidableEq

/-- backend.cc:143 — `sort_indices = indices + row_idxs / kBlockSize`. -/
def sort_indices (blockSize : Nat) (offsets indices : List Nat) : List Nat :=
  List.zipWith (fun c r => c + r / blockSize)
    (sputnikColIndices blockSize indices) (sputnikRowIndices blockSize offsets)

/-- backend.cc:144 — `gather_indices = sort_indices.argsort()`. -/
def gather_indices (blockSize : Nat) (offsets indices : List Nat) : List Nat :=
  argsort (sort_indices blockSize offsets indices)

/-- backend.cc:126-168 — the transpose-view synthesizer.  `shape` is the
(rows, cols) pair, `offsets`/`indices` the block-level descriptor arrays, and
`blockSize` is `data.size(1)`.  Each line mirrors the source: the row-index
buffer, the composite-key argsort, the two gathers, the per-block byte offsets
(`kBytesPerBlock = blockSize² * sizeof(half)`), and the histogram-cumsum
construction of `offsets_t` scaled to element counts. -/
def transpose (shape : Nat × Nat) (offsets indices : List Nat) (blockSize : Nat) :
    TransposeView :=
  let kNonzeros := indices.length
  let kCols := shape.2
  let kBlockCols := kCols / blockSize
  let kValuesPerBlock := blockSize * blockSize
  let kBytesPerBlock := kValuesPerBlock * 2
  let row_idxs := sputnikRowIndices blockSize offsets
  let gi := gather_indices blockSize offsets indices
  let indices_t := gi.map (fun j => row_idxs.getD j 0)
  let block_offsets := (List.range kNonzeros).map (fun j => j * kBytesPerBlock)
  let block_offsets_t := gi.map (fun j => block_offsets.getD j 0)
  let nnz_per_column := histc (sputnikColIndices blockSize indices) kBlockCols 0 kCols
  let offsets_t := 0 :: (cumsum nnz_per_column).map (fun v => v * kValuesPerBlock)
  ⟨indices_t, offsets_t, block_offsets_t⟩

/-- backend.cc:170-175 — `standardize_shape`: the (rows, cols) contents written
back into the caller's shape tensor, swapped when the transpose flag is set. -/
def standardize_shape (shape : Nat × Nat) (t : Bool) : Nat × Nat :=
  let rows := if t then shape.2 else shape.1
  let cols := if t then shape.1 else shape.2
  (rows, cols)

/-- backend.cc:181-185 — bitmask workspace size:
`ceil(columns / 64) * rows * sizeof(uint64_t)` bytes. -/
def size_in_bytes (rows columns : Nat) : Nat :=
  let kAlignment := 64
  let column_entries := (columns + kAlignment - 1) / kAlignment
  column_entries * rows * 8

/-- backend.cc:187-197 — byte count of the buffer allocated by
`allocate_bitmask` for a BlockMatrix with dimensions `mrows`×`mcols` and
transpose flag `t`. -/
def allocate_bitmask_bytes (mrows mcols blockSize : Nat) (t : Bool) : Nat :=
  let block_rows := (if t then mcols else mrows) / blockSize
  let block_cols := (if t then mrows else mcols) / blockSize
  size_in_bytes block_rows block_cols

/-- backend.cc:396-438 — the bitmask bytes `dss` allocates for a sparse operand
declared with shape `shape` and transpose flag `t`: the shape is first
standardized (backend.cc:411/420) and `allocate_bitmask` is then called on the
standardized BlockMatrix with the same flag (backend.cc:435/437). -/
def dssBitmaskBytes (shape : Nat × Nat) (t : Bool) : Nat :=
  let s := standardize_shape shape t
  allocate_bitmask_bytes s.1 s.2 128 t

/-- Claim-side formula, from the spec's words (§4.4), for comparison with the
code: `ceil((cols/128)/64) * (rows/128) * 8` bytes for an operand of effective
dimensions `effRows × effCols`. -/
def specBitmaskBytes (effRows effCols : Nat) : Nat :=
  ((effCols / 128 + 63) / 64) * (effRows / 128) * 8

/-- Scalar element types distinguished by the backend's dtype checks. -/
inductive DType
  | half | int | short | int8 | float | other
deriving DecidableEq

/-- Host-visible tensor metadata inspected by the validation helpers: device,
sizes and dtype.  The backend's checks read nothing else. -/
structure TensorMeta where
  isCuda : Bool
  sizes : List Nat
  dtype : DType
deriving DecidableEq

/-- `numel` of a tensor. -/
def numel (m : TensorMeta) : Nat := m.sizes.prod

/-- `ndimension` of a tensor. -/
def ndimension (m : TensorMeta) : Nat := m.sizes.length

/-- backend.cc:27-31 — `validate_shape`: CPU, two elements, int32. -/
def validate_shape (m : TensorMeta) : Bool :=
  !m.isCuda && (numel m == 2) && (m.dtype == DType.int)

/-- backend.cc:39-59 — `validate_sparse`: the full acceptance predicate for a
(shape, data, offsets, indices) quadruple.  It inspects only device, rank,
dtype and the blocking sizes of `data`. -/
def validate_sparse (shape data offsets indices : TensorMeta) : Bool :=
  validate_shape shape &&
  data.isCuda && (ndimension data == 3) && (data.dtype == DType.half) &&
  offsets.isCuda && (ndimension offsets == 1) && (offsets.dtype == DType.int) &&
  indices.isCuda && (ndimension indices == 1) && (indices.dtype == DType.short) &&
  (data.sizes.getD 1 0 == data.sizes.getD 2 0) &&
  (data.sizes.getD 1 0 == 128)

/-- The CSR invariants of the spec's §3 data model, over the tensor contents of
a block-sparse quadruple (never inspected by `validate_sparse`). -/
def csrInvariants (rows cols : Nat) (offsets indices : List Nat) : Prop :=
  offsets.length = rows / 128 + 1 ∧
  List.Chain' (· ≤ ·) offsets ∧
  offsets.head? = some 0 ∧
  offsets.getLast? = some indices.length ∧
  (∀ c ∈ indices, c < cols / 128) ∧
  rows % 128 = 0 ∧ cols % 128 = 0

/-- The derived buffers a dispatcher can allocate and attach. -/
inductive KBuf
  | indicesT | offsetsT | blockOffsets | lhsBitmask | rhsBitmask
deriving DecidableEq

/-- Observable host-side events of one dispatcher call, in program order. -/
inductive KStep
  | validateArgs | normalizeShape | checkMatmul | raiseInvalid
  | alloc (b : KBuf) | kernelPlain | kernelEx
deriving DecidableEq

/-- The three derived buffers produced by one call of the transpose-view
synthesizer and attached to a sparse descriptor. -/
def transposeViewAllocs : List KStep :=
  [KStep.alloc KBuf.indicesT, KStep.alloc KBuf.offsetsT, KStep.alloc KBuf.blockOffsets]

/-- backend.cc:204-253 — event trace of `dsd`.  `argsOk` is the outcome of the
descriptor checks, `matmulOk` of `sputnik::block::ValidMatmul`, and
`transpose_lhs` the sparse left operand's flag. -/
def dsdTrace (argsOk matmulOk transpose_lhs : Bool) : List KStep :=
  if !argsOk then [KStep.raiseInvalid]
  else [KStep.validateArgs, KStep.normalizeShape] ++
    (if !matmulOk then [KStep.raiseInvalid]
     else [KStep.checkMatmul] ++
       (if transpose_lhs then transposeViewAllocs ++ [KStep.kernelEx]
        else [KStep.kernelPlain]))

/-- backend.cc:255-304 — event trace of `dds`; the sparse right operand's
transpose view is needed when its flag is `false`. -/
def ddsTrace (argsOk matmulOk transpose_rhs : Bool) : List KStep :=
  if !argsOk then [KStep.raiseInvalid]
  else [KStep.validateArgs, KStep.normalizeShape] ++
    (if !matmulOk then [KStep.raiseInvalid]
     else [KStep.checkMatmul] ++
       (if !transpose_rhs then transposeViewAllocs ++ [KStep.kernelEx]
        else [KStep.kernelPlain]))

/-- backend.cc:306-335 — event trace of `sdd`: no shape normalization, no
derived buffers, always the plain entry point. -/
def sddTrace (argsOk matmulOk : Bool) : List KStep :=
  if !argsOk then [KStep.raiseInvalid]
  else [KStep.validateArgs] ++
    (if !matmulOk then [KStep.raiseInvalid]
     else [KStep.checkMatmul, KStep.kernelPlain])

/-- backend.cc:337-394 — event trace of `ssd`; same dispatch rule as `dsd` for
the sparse left operand. -/
def ssdTrace (argsOk matmulOk transpose_lhs : Bool) : List KStep :=
  if !argsOk then [KStep.raiseInvalid]
  else [KStep.validateArgs, KStep.normalizeShape] ++
    (if !matmulOk then [KStep.raiseInvalid]
     else [KStep.checkMatmul] ++
       (if transpose_lhs then transposeViewAllocs ++ [KStep.kernelEx]
        else [KStep.kernelPlain]))

/-- backend.cc:396-467 — event trace of `dss`: both shapes normalized, both
bitmasks allocated right after validation, transpose views per the dispatch
rule, and the extended entry point unconditionally. -/
def dssTrace (argsOk matmulOk transpose_lhs transpose_rhs : Bool) : List KStep :=
  if !argsOk then [KStep.raiseInvalid]
  else [KStep.validateArgs, KStep.normalizeShape, KStep.normalizeShape] ++
    (if !matmulOk then [KStep.raiseInvalid]
     else [KStep.checkMatmul, KStep.alloc KBuf.lhsBitmask, KStep.alloc KBuf.rhsBitmask] ++
       (if transpose_lhs then transposeViewAllocs else []) ++
       (if !transpose_rhs then transposeViewAllocs else []) ++
       [KStep.kernelEx])

/-- Is the step an allocation of a derived buffer or workspace? -/
def isAlloc : KStep → Bool
  | KStep.alloc _ => true
  | _ => false

/-- Is the step a kernel invocation? -/
def isKernel : KStep → Bool
  | KStep.kernelPlain => true
  | KStep.kernelEx => true
  | _ => false

/-- The allocation events of a trace. -/
def allocsOf (l : List KStep) : List KStep := l.filter isAlloc

/-- Is the step a transpose-view buffer allocation? -/
def isViewAlloc : KStep → Bool
  | KStep.alloc KBuf.indicesT => true
  | KStep.alloc KBuf.offsetsT => true
  | KStep.alloc KBuf.blockOffsets => true
  | _ => false

/-- No allocation and no kernel call occurs before the ValidMatmul check has
passed (in a trace without a `checkMatmul` event, nowhere at all). -/
def noWorkBeforeCheck (l : List KStep) : Bool :=
  (l.takeWhile (fun s => !(s == KStep.checkMatmul))).all
    (fun s => !isAlloc s && !isKernel s)

/-- Both bitmask workspaces appear before the first transpose-view buffer
allocation. -/
def bitmasksFirst (l : List KStep) : Bool :=
  let pre := l.takeWhile (fun s => !isViewAlloc s)
  pre.contains (KStep.alloc KBuf.lhsBitmask) && pre.contains (KStep.alloc KBuf.rhsBitmask)

/-- The caller-owned tensors of one block-sparse operand, as host-visible
contents (the `data` payload abstracted to an opaque list). -/
structure SparseBuffers where
  shape : Nat × Nat
  data : List Nat
  offsets : List Nat
  indices : List Nat
deriving DecidableEq

/-- backend.cc:204-219 — the writes `dsd` performs to the sparse operand's
caller-owned host tensors: only `standardize_shape` on the shape tensor. -/
def dsdHostWrites (b : SparseBuffers) (t : Bool) : SparseBuffers :=
  { b with shape := standardize_shape b.shape t }

/-- backend.cc:255-272 — the writes `dds` performs to the sparse operand's
caller-owned host tensors. -/
def ddsHostWrites (b : SparseBuffers) (t : Bool) : SparseBuffers :=
  { b with shape := standardize_shape b.shape t }

/-- backend.cc:337-363 — the writes `ssd` performs to the caller-owned host
tensors of the flagged sparse left operand and of the sparse output (whose
shape is not standardized). -/
def ssdHostWrites (lhs out : SparseBuffers) (t : Bool) : SparseBuffers × SparseBuffers :=
  ({ lhs with shape := standardize_shape lhs.shape t }, out)

/-- backend.cc:396-424 — the writes `dss` performs to the caller-owned host
tensors of its two sparse operands. -/
def dssHostWrites (lhs rhs : SparseBuffers) (tl tr : Bool) :
    SparseBuffers × SparseBuffers :=
  ({ lhs with shape := standardize_shape lhs.shape tl },
   { rhs with shape := standardize_shape rhs.shape tr })

/-- A block-sparse descriptor at the spec's §3 data-model level: block-unit
CSR-over-blocks arrays. -/
structure BlockSparse where
  rows : Nat
  cols : Nat
  offsets : List Nat
  indices : List Nat
deriving DecidableEq

/-- Validity of a block-sparse descriptor: the §3 data-model invariants, the
§4.3 synthesizer preconditions (`block_size = 128`, `rows ≤ 128²`), and int16
representability of the element-offset column buffer (`cols ≤ 256·128`, forced
by the `CHECK_SHORT` dtype of `indices`). -/
def ValidDesc (d : BlockSparse) : Prop :=
  d.rows % 128 = 0 ∧ d.cols % 128 = 0 ∧
  d.rows ≤ 128 * 128 ∧ d.cols ≤ 128 * 256 ∧
  d.offsets.length = d.rows / 128 + 1 ∧
  d.offsets.head? = some 0 ∧
  d.offsets.getLast? = some d.indices.length ∧
  List.Chain' (· ≤ ·) d.offsets ∧
  ∀ c ∈ d.indices, c < d.cols / 128

/-- The transpose view of a descriptor, with the backend's fixed block size. -/
def transposeView (d : BlockSparse) : TransposeView :=
  transpose (d.rows, d.cols) d.offsets d.indices 128

/-- The stored blocks of a descriptor as (block-row, block-column) pairs, in
storage order. -/
def blockPattern (d : BlockSparse) : List (Nat × Nat) :=
  (rowIndicesBlocks d.offsets).zip d.indices

/-- The stored blocks of a descriptor as (block-row, block-column) pairs, in
the order of the permutation computed by `transpose`. -/
def permutedPattern (d : BlockSparse) : List (Nat × Nat) :=
  (gather_indices 128 d.offsets d.indices).map
    (fun j => ((rowIndicesBlocks d.offsets).getD j 0, d.indices.getD j 0))

/-- Column-major lexicographic order on (block-row, block-column) pairs:
ascending block-column, and within one block-column ascending block-row. -/
def colRowLe (a b : Nat × Nat) : Prop :=
  a.2 < b.2 ∨ (a.2 = b.2 ∧ a.1 ≤ b.1)

/-- The spec's composite sort key of a (block-row, block-column) pair:
`key = block_column_index * block_rows_upper_bound + block_row_index` with
`block_rows_upper_bound = 128`. -/
def patKey (p : Nat × Nat) : Nat := p.2 * 128 + p.1

/-- The stored blocks sorted by the spec's composite key: the canonical
column-major enumeration of the pattern. -/
def sortedPattern (d : BlockSparse) : List (Nat × Nat) :=
  sortBy patKey (blockPattern d)

/-- Reading a transpose view `(offs, idxs)` as a compressed block-column
representation (from the spec's words, §3/§8): for every block-column `c`, the
segment of `idxs` delimited by the element-scaled pointers
`offs[c] / blockSize²` and `offs[c+1] / blockSize²` lists the block-rows (as
element offsets, divided back by `blockSize`) of the blocks in column `c`. -/
def readTransposed (blockCols blockSize : Nat) (offs idxs : List Nat) :
    List (Nat × Nat) :=
  ((List.range blockCols).map (fun c =>
    ((idxs.drop (offs.getD c 0 / (blockSize * blockSize))).take
        (offs.getD (c + 1) 0 / (blockSize * blockSize) -
          offs.getD c 0 / (blockSize * blockSize))).map
      (fun v => (v / blockSize, c)))).flatten

/-- The spec's scenario descriptor: `rows = 256, cols = 256`, blocks at
(block-row 0, block-col 1) and (block-row 1, block-col 0). -/
def scenarioDesc : BlockSparse := ⟨256, 256, [0, 1, 2], [1, 0]⟩

/-
Theorems.  General lemmas about the embedded primitives first, then one
theorem per claim.
-/

theorem insertBy_perm {α : Type} (key : α → Nat) (x : α) (l : List α) :
    List.Perm (insertBy key x l) (x :: l) := by
  induction l with
  | nil => exact List.Perm.refl _
  | cons y ys ih =>
    simp only [insertBy]
    split
    · exact List.Perm.refl _
    · exact (List.Perm.cons y ih).trans (List.Perm.swap x y ys)

theorem sortBy_perm {α : Type} (key : α → Nat) (l : List α) :
    List.Perm (sortBy key l) l := by
  induction l with
  | nil => exact List.Perm.refl _
  | cons x xs ih =>
    exact (insertBy_perm key x (sortBy key xs)).trans (List.Perm.cons x ih)

theorem insertBy_pairwise {α : Type} (key : α → Nat) (x : α) (l : List α)
    (h : l.Pairwise (fun a b => key a ≤ key b)) :
    (insertBy key x l).Pairwise (fun a b => key a ≤ key b) := by
  induction l with
  | nil => simp [insertBy]
  | cons y ys ih =>
    rw [List.pairwise_cons] at h
    simp only [insertBy]
    split
    · rename_i hlt
      refine List.pairwise_cons.2 ⟨?_, List.pairwise_cons.2 ⟨h.1, h.2⟩⟩
      intro b hb
      rcases List.mem_cons.1 hb with rfl | hb
      · exact le_of_lt hlt
      · exact le_trans (le_of_lt hlt) (h.1 b hb)
    · rename_i hge
      refine List.pairwise_cons.2 ⟨?_, ih h.2⟩
      intro b hb
      rcases List.mem_cons.1 ((insertBy_perm key x ys).mem_iff.1 hb) with rfl | hb
      · exact Nat.le_of_not_lt hge
      · exact h.1 b hb

theorem sortBy_pairwise {α : Type} (key : α → Nat) (l : List α) :
    (sortBy key l).Pairwise (fun a b => key a ≤ key b) := by
  induction l with
  | nil => simp [sortBy]
  | cons x xs ih => exact insertBy_pairwise key x (sortBy key xs) ih

theorem insertBy_map {α β : Type} (key : β → Nat) (f : α → β) (x : α) (l : List α) :
    insertBy key (f x) (l.map f) = (insertBy (fun a => key (f a)) x l).map f := by
  induction l with
  | nil => rfl
  | cons y ys ih =>
    by_cases hk : key (f x) < key (f y)
    · simp [insertBy, hk]
    · simp [insertBy, hk, ih]

theorem sortBy_map {α β : Type} (key : β → Nat) (f : α → β) (l : List α) :
    sortBy key (l.map f) = (sortBy (fun a => key (f a)) l).map f := by
  induction l with
  | nil => rfl
  | cons x xs ih => simp only [List.map_cons, sortBy, ih, insertBy_map]

theorem insertBy_congr {α : Type} (k1 k2 : α → Nat) (x : α) (l : List α)
    (hx : k1 x = k2 x) (hl : ∀ a ∈ l, k1 a = k2 a) :
    insertBy k1 x l = insertBy k2 x l := by
  induction l with
  | nil => rfl
  | cons y ys ih =>
    have hy : k1 y = k2 y := hl y (List.mem_cons_self y ys)
    have hys : ∀ a ∈ ys, k1 a = k2 a := fun a ha => hl a (List.mem_cons_of_mem y ha)
    simp only [insertBy, hx, hy, ih hys]

theorem sortBy_congr {α : Type} (k1 k2 : α → Nat) (l : List α)
    (hl : ∀ a ∈ l, k1 a = k2 a) : sortBy k1 l = sortBy k2 l := by
  induction l with
  | nil => rfl
  | cons x xs ih =>
    have hx := hl x (List.mem_cons_self x xs)
    have hxs : ∀ a ∈ xs, k1 a = k2 a := fun a ha => hl a (List.mem_cons_of_mem x ha)
    rw [sortBy, sortBy, ih hxs]
    exact insertBy_congr k1 k2 x (sortBy k2 xs) hx
      (fun a ha => hl a (List.mem_cons_of_mem x ((sortBy_perm k2 xs).mem_iff.1 ha)))

theorem chain'_head_le_last : ∀ (l : List Nat), List.Chain' (· ≤ ·) l →
    l.head?.getD 0 ≤ l.getLast?.getD 0
  | [], _ => le_refl _
  | [_], _ => le_refl _
  | a :: b :: rest, h => by
    rw [List.chain'_cons] at h
    have ih := chain'_head_le_last (b :: rest) h.2
    rw [List.getLast?_cons_cons]
    simp only [List.head?_cons, Option.getD_some] at ih ⊢
    exact le_trans h.1 ih

theorem rowIndicesFrom_length : ∀ (i : Nat) (l : List Nat), List.Chain' (· ≤ ·) l →
    (rowIndicesFrom i l).length = l.getLast?.getD 0 - l.head?.getD 0
  | _, [], _ => rfl
  | _, [_], _ => by simp [rowIndicesFrom]
  | i, a :: b :: rest, h => by
    rw [List.chain'_cons] at h
    obtain ⟨hab, h2⟩ := h
    have ih := rowIndicesFrom_length (i + 1) (b :: rest) h2
    have hbl := chain'_head_le_last (b :: rest) h2
    simp only [List.head?_cons, Option.getD_some] at ih hbl
    simp only [rowIndicesFrom, List.length_append, List.length_replicate, ih,
      List.getLast?_cons_cons, List.head?_cons, Option.getD_some]
    omega

theorem rowIndicesFrom_mem_lt : ∀ (i : Nat) (l : List Nat) (x : Nat),
    x ∈ rowIndicesFrom i l → x < i + (l.length - 1)
  | _, [], _, hx => absurd hx (by simp [rowIndicesFrom])
  | _, [_], _, hx => absurd hx (by simp [rowIndicesFrom])
  | i, a :: b :: rest, x, hx => by
    simp only [rowIndicesFrom, List.mem_append, List.mem_replicate] at hx
    rcases hx with ⟨_, rfl⟩ | hx
    · simp only [List.length_cons]
      omega
    · have ih := rowIndicesFrom_mem_lt (i + 1) (b :: rest) x hx
      simp only [List.length_cons] at ih ⊢
      omega

theorem zipWith_getD_of_lt (f : Nat → Nat → Nat) :
    ∀ (l1 l2 : List Nat) (j : Nat), j < l1.length → j < l2.length →
      (List.zipWith f l1 l2).getD j 0 = f (l1.getD j 0) (l2.getD j 0)
  | [], _, _, h, _ => absurd h (by simp)
  | _ :: _, [], _, _, h => absurd h (by simp)
  | x :: xs, y :: ys, 0, _, _ => rfl
  | x :: xs, y :: ys, j + 1, h1, h2 => by
    simp only [List.zipWith_cons_cons, List.getD_cons_succ]
    exact zipWith_getD_of_lt f xs ys j (by simpa using h1) (by simpa using h2)

theorem getD_map_mul (k : Nat) : ∀ (l : List Nat) (j : Nat),
    (l.map (fun r => r * k)).getD j 0 = l.getD j 0 * k
  | [], j => by simp
  | x :: xs, 0 => rfl
  | x :: xs, j + 1 => by
    simp only [List.map_cons, List.getD_cons_succ]
    exact getD_map_mul k xs j

theorem zip_eq_map_range : ∀ (l1 l2 : List Nat), l1.length = l2.length →
    l1.zip l2 = (List.range l1.length).map (fun i => (l1.getD i 0, l2.getD i 0))
  | [], l2, _ => by simp
  | _ :: _, [], h => by simp at h
  | x :: xs, y :: ys, h => by
    have ih := zip_eq_map_range xs ys (by simpa using h)
    simp only [List.zip_cons_cons, List.length_cons]
    rw [List.range_succ_eq_map, List.map_cons, List.map_map, ih]
    refine congrArg₂ List.cons rfl ?_
    refine List.map_congr_left ?_
    intro i _
    simp [Function.comp, List.getD_cons_succ]

theorem sort_indices_eq (offsets indices : List Nat) :
    sort_indices 128 offsets indices =
      List.zipWith (fun c r => c * 128 + r) indices (rowIndicesBlocks offsets) := by
  unfold sort_indices sputnikColIndices sputnikRowIndices
  rw [List.zipWith_map]
  have hf : (fun (a b : Nat) => a * 128 + b * 128 / 128) =
      (fun (a b : Nat) => a * 128 + b) := by
    funext a b
    omega
  rw [hf]

theorem cumsumFrom_length : ∀ (acc : Nat) (l : List Nat),
    (cumsumFrom acc l).length = l.length
  | _, [] => rfl
  | acc, x :: xs => by
    simp only [cumsumFrom, List.length_cons]
    rw [cumsumFrom_length (acc + x) xs]

theorem cumsumFrom_chain : ∀ (acc : Nat) (l : List Nat),
    List.Chain' (· ≤ ·) (cumsumFrom acc l)
  | _, [] => List.chain'_nil
  | _, [_] => by simp [cumsumFrom]
  | acc, x :: y :: rest => by
    have ih := cumsumFrom_chain (acc + x) (y :: rest)
    rw [show cumsumFrom acc (x :: y :: rest) =
      (acc + x) :: (acc + x + y) :: cumsumFrom (acc + x + y) rest from rfl]
    rw [List.chain'_cons]
    exact ⟨by omega, ih⟩

theorem cumsumFrom_getD : ∀ (acc : Nat) (l : List Nat) (c : Nat), c < l.length →
    (cumsumFrom acc l).getD c 0 = acc + (l.take (c + 1)).sum
  | _, [], c, h => absurd h (by simp)
  | acc, x :: xs, 0, _ => by simp [cumsumFrom]
  | acc, x :: xs, c + 1, h => by
    have ih := cumsumFrom_getD (acc + x) xs c (by simpa using h)
    simp only [cumsumFrom, List.getD_cons_succ, List.take_succ_cons, List.sum_cons]
    rw [ih]
    omega

theorem cumsumFrom_getLast : ∀ (acc : Nat) (l : List Nat), l ≠ [] →
    (cumsumFrom acc l).getLast? = some (acc + l.sum)
  | _, [], h => absurd rfl h
  | acc, [x], _ => by simp [cumsumFrom]
  | acc, x :: y :: rest, _ => by
    have ih := cumsumFrom_getLast (acc + x) (y :: rest) (by simp)
    rw [show cumsumFrom acc (x :: y :: rest) =
      (acc + x) :: cumsumFrom (acc + x) (y :: rest) from rfl]
    rw [show cumsumFrom (acc + x) (y :: rest) =
      (acc + x + y) :: cumsumFrom (acc + x + y) rest from rfl]
    rw [List.getLast?_cons_cons]
    rw [show (acc + x + y) :: cumsumFrom (acc + x + y) rest =
      cumsumFrom (acc + x) (y :: rest) from rfl]
    rw [ih]
    simp only [List.sum_cons, Option.some.injEq]
    omega

theorem getLast?_cons_ne_nil {α : Type} (a : α) : ∀ (l : List α), l ≠ [] →
    (a :: l).getLast? = l.getLast?
  | [], h => absurd rfl h
  | _ :: _, _ => List.getLast?_cons_cons

theorem countP_lt_succ (l : List Nat) (m : Nat) :
    l.countP (fun x => x < m + 1) =
      l.countP (fun x => x < m) + l.countP (fun x => x == m) := by
  induction l with
  | nil => rfl
  | cons a t ih =>
    simp only [List.countP_cons, ih, beq_iff_eq, decide_eq_true_eq]
    split_ifs <;> omega

theorem countP_zip_snd (f : Nat → Bool) : ∀ (l1 l2 : List Nat), l1.length = l2.length →
    (l1.zip l2).countP (fun p => f p.2) = l2.countP f
  | [], [], _ => rfl
  | [], _ :: _, h => by simp at h
  | _ :: _, [], h => by simp at h
  | x :: xs, y :: ys, h => by
    simp only [List.zip_cons_cons, List.countP_cons]
    rw [countP_zip_snd f xs ys (by simpa using h)]

theorem sum_range_count (I : List Nat) : ∀ (m : Nat),
    ((List.range m).map (fun b => I.countP (fun c => c == b))).sum =
      I.countP (fun c => c < m)
  | 0 => by simp
  | m + 1 => by
    rw [List.range_succ, List.map_append, List.sum_append]
    simp only [List.map_cons, List.map_nil, List.sum_cons, List.sum_nil]
    rw [sum_range_count I m, countP_lt_succ]
    omega

theorem histcBin_scaled (B c : Nat) (hc : c < B) :
    histcBin B 0 (128 * B) (c * 128) = some c := by
  have hdiv : c * 128 * B / (128 * B) = c := by
    rw [Nat.mul_assoc]
    exact Nat.mul_div_cancel c (by omega)
  unfold histcBin
  rw [if_neg (by omega)]
  simp only [Nat.sub_zero, Option.some.injEq]
  rw [hdiv]
  exact Nat.min_eq_right (by omega)

theorem histc_scaled (I : List Nat) (B hi : Nat) (hhi : hi = 128 * B)
    (hB : ∀ c ∈ I, c < B) :
    histc (I.map (fun c => c * 128)) B 0 hi =
      (List.range B).map (fun b => I.countP (fun c => c == b)) := by
  subst hhi
  unfold histc
  refine List.map_congr_left ?_
  intro b _
  rw [List.countP_map]
  refine List.countP_congr ?_
  intro c hc
  simp only [Function.comp]
  rw [histcBin_scaled B c (hB c hc)]
  rw [Bool.eq_iff_iff]
  simp [beq_iff_eq]

theorem histc_length (vals : List Nat) (bins lo hi : Nat) :
    (histc vals bins lo hi).length = bins := by
  simp [histc]

theorem sorted_filter_split (c : Nat) : ∀ (l : List (Nat × Nat)),
    l.Pairwise (fun a b => a.2 ≤ b.2) →
    l = l.filter (fun p => p.2 < c) ++ l.filter (fun p => c ≤ p.2)
  | [], _ => rfl
  | a :: t, h => by
    rw [List.pairwise_cons] at h
    have ih := sorted_filter_split c t h.2
    by_cases hc : a.2 < c
    · rw [List.filter_cons_of_pos (by simpa using hc),
        List.filter_cons_of_neg (by simp; omega), List.cons_append]
      exact congrArg (List.cons a) ih
    · have hnil : t.filter (fun p => p.2 < c) = [] := by
        rw [List.filter_eq_nil_iff]
        intro p hp
        have := h.1 p hp
        simp
        omega
      have hall : t.filter (fun p => c ≤ p.2) = t := by
        rw [List.filter_eq_self]
        intro p hp
        have := h.1 p hp
        simp
        omega
      rw [List.filter_cons_of_neg (by simpa using hc),
        List.filter_cons_of_pos (by simp; omega), hnil, hall, List.nil_append]

theorem sorted_eq_flatten_filter : ∀ (n : Nat) (l : List (Nat × Nat)),
    l.Pairwise (fun a b => a.2 ≤ b.2) → (∀ p ∈ l, p.2 < n) →
    l = ((List.range n).map (fun c => l.filter (fun p => p.2 == c))).flatten
  | 0, l, _, hb => by
    have hl : l = [] :=
      List.eq_nil_iff_forall_not_mem.2 (fun p hp => absurd (hb p hp) (by omega))
    simp [hl]
  | n + 1, l, hs, hb => by
    have hpref : (l.filter (fun p => p.2 < n)).Pairwise (fun a b => a.2 ≤ b.2) :=
      hs.filter _
    have hprefb : ∀ p ∈ l.filter (fun p => p.2 < n), p.2 < n := by
      intro p hp
      simpa using (List.mem_filter.1 hp).2
    have ih := sorted_eq_flatten_filter n (l.filter (fun p => p.2 < n)) hpref hprefb
    rw [List.range_succ, List.map_append, List.flatten_append]
    simp only [List.map_cons, List.map_nil, List.flatten_cons, List.flatten_nil,
      List.append_nil]
    conv_lhs => rw [sorted_filter_split n l hs]
    refine congrArg₂ List.append ?_ ?_
    · rw [ih]
      refine congrArg List.flatten ?_
      refine List.map_congr_left ?_
      intro c hc
      have hcn : c < n := List.mem_range.1 hc
      rw [List.filter_filter]
      refine List.filter_congr ?_
      intro p _
      rw [Bool.eq_iff_iff]
      simp only [Bool.and_eq_true, beq_iff_eq, decide_eq_true_eq]
      omega
    · refine List.filter_congr ?_
      intro p hp
      have := hb p hp
      rw [Bool.eq_iff_iff]
      simp only [beq_iff_eq, decide_eq_true_eq]
      omega

theorem pairwise_key_to_lex : ∀ (l : List (Nat × Nat)),
    l.Pairwise (fun a b => patKey a ≤ patKey b) → (∀ p ∈ l, p.1 < 128) →
    l.Pairwise colRowLe := by
  intro l
  induction l with
  | nil =>
    intro _ _
    exact List.Pairwise.nil
  | cons a tl ih =>
    intro h hb
    rw [List.pairwise_cons] at h ⊢
    refine ⟨fun b hbmem => ?_, ih h.2 (fun p hp => hb p (List.mem_cons_of_mem a hp))⟩
    have h1 := h.1 b hbmem
    have ha := hb a (List.mem_cons_self a tl)
    have hbb := hb b (List.mem_cons_of_mem a hbmem)
    unfold patKey at h1
    unfold colRowLe
    omega

theorem validDesc_rowlen (d : BlockSparse) (h : ValidDesc d) :
    (rowIndicesBlocks d.offsets).length = d.indices.length := by
  obtain ⟨h1, h2, h3, h4, h5, h6, h7, h8, h9⟩ := h
  unfold rowIndicesBlocks
  rw [rowIndicesFrom_length 0 d.offsets h8, h7, h6]
  simp

theorem validDesc_rowbound (d : BlockSparse) (h : ValidDesc d) :
    ∀ r ∈ rowIndicesBlocks d.offsets, r < 128 := by
  obtain ⟨h1, h2, h3, h4, h5, h6, h7, h8, h9⟩ := h
  intro r hr
  have hb := rowIndicesFrom_mem_lt 0 d.offsets r hr
  rw [h5] at hb
  omega

theorem permutedPattern_eq_sorted (d : BlockSparse)
    (hlen : (rowIndicesBlocks d.offsets).length = d.indices.length) :
    permutedPattern d = sortedPattern d := by
  unfold permutedPattern sortedPattern gather_indices argsort
  rw [sort_indices_eq]
  have hkl : (List.zipWith (fun c r => c * 128 + r) d.indices
      (rowIndicesBlocks d.offsets)).length = d.indices.length := by
    rw [List.length_zipWith, hlen, Nat.min_self]
  rw [hkl]
  have hcongr : ∀ j ∈ List.range d.indices.length,
      (fun i => (List.zipWith (fun c r => c * 128 + r) d.indices
        (rowIndicesBlocks d.offsets)).getD i 0) j =
      (fun i => patKey ((rowIndicesBlocks d.offsets).getD i 0, d.indices.getD i 0)) j := by
    intro j hj
    have hjn : j < d.indices.length := List.mem_range.1 hj
    simp only []
    rw [zipWith_getD_of_lt (fun c r => c * 128 + r) d.indices
      (rowIndicesBlocks d.offsets) j hjn (by omega)]
    rfl
  rw [sortBy_congr _ _ _ hcongr]
  have hzip : blockPattern d = (List.range d.indices.length).map
      (fun i => ((rowIndicesBlocks d.offsets).getD i 0, d.indices.getD i 0)) := by
    unfold blockPattern
    rw [zip_eq_map_range (rowIndicesBlocks d.offsets) d.indices hlen, hlen]
  rw [hzip, sortBy_map]

theorem indices_t_eq (d : BlockSparse) :
    (transposeView d).indices_t = (permutedPattern d).map (fun p => p.1 * 128) := by
  have h1 : (transposeView d).indices_t =
      (gather_indices 128 d.offsets d.indices).map
        (fun j => (sputnikRowIndices 128 d.offsets).getD j 0) := rfl
  rw [h1]
  unfold permutedPattern
  rw [List.map_map]
  refine List.map_congr_left ?_
  intro j _
  simp only [Function.comp]
  exact getD_map_mul 128 (rowIndicesBlocks d.offsets) j

theorem sortedPattern_perm (d : BlockSparse) :
    List.Perm (sortedPattern d) (blockPattern d) :=
  sortBy_perm patKey (blockPattern d)

theorem sortedPattern_colRowLe (d : BlockSparse) (h : ValidDesc d) :
    (sortedPattern d).Pairwise colRowLe := by
  refine pairwise_key_to_lex _ (sortBy_pairwise patKey (blockPattern d)) ?_
  intro p hp
  obtain ⟨r, c⟩ := p
  have hmem := (sortedPattern_perm d).mem_iff.1 hp
  exact validDesc_rowbound d h r (List.of_mem_zip hmem).1

theorem sortedPattern_colLe (d : BlockSparse) (h : ValidDesc d) :
    (sortedPattern d).Pairwise (fun a b => a.2 ≤ b.2) := by
  refine (sortedPattern_colRowLe d h).imp ?_
  intro a b hab
  unfold colRowLe at hab
  omega

theorem sortedPattern_colBound (d : BlockSparse) (h : ValidDesc d) :
    ∀ p ∈ sortedPattern d, p.2 < d.cols / 128 := by
  intro p hp
  obtain ⟨r, c⟩ := p
  have hmem := (sortedPattern_perm d).mem_iff.1 hp
  exact h.2.2.2.2.2.2.2.2 c (List.of_mem_zip hmem).2

theorem sortedPattern_countP (d : BlockSparse)
    (hlen : (rowIndicesBlocks d.offsets).length = d.indices.length)
    (f : Nat → Bool) :
    (sortedPattern d).countP (fun p => f p.2) = d.indices.countP f := by
  rw [(sortedPattern_perm d).countP_eq]
  exact countP_zip_snd f (rowIndicesBlocks d.offsets) d.indices hlen

theorem cumsum_length (l : List Nat) : (cumsum l).length = l.length :=
  cumsumFrom_length 0 l

theorem cumsum_getD (l : List Nat) (c : Nat) (h : c < l.length) :
    (cumsum l).getD c 0 = (l.take (c + 1)).sum := by
  unfold cumsum
  rw [cumsumFrom_getD 0 l c h]
  omega

theorem cumsum_getLast (l : List Nat) (h : l ≠ []) :
    (cumsum l).getLast? = some l.sum := by
  unfold cumsum
  rw [cumsumFrom_getLast 0 l h]
  simp

theorem histc_eq_counts (d : BlockSparse) (h2 : d.cols % 128 = 0)
    (h9 : ∀ c ∈ d.indices, c < d.cols / 128) :
    histc (sputnikColIndices 128 d.indices) (d.cols / 128) 0 d.cols =
      (List.range (d.cols / 128)).map (fun b => d.indices.countP (fun x => x == b)) := by
  unfold sputnikColIndices
  exact histc_scaled d.indices (d.cols / 128) d.cols (by omega) h9

theorem offsets_t_getD (d : BlockSparse) (h : ValidDesc d) :
    ∀ c : Nat, c ≤ d.cols / 128 →
    (transposeView d).offsets_t.getD c 0 =
      d.indices.countP (fun x => x < c) * (128 * 128) := by
  have hofft : (transposeView d).offsets_t =
      0 :: (cumsum (histc (sputnikColIndices 128 d.indices) (d.cols / 128) 0
        d.cols)).map (fun v => v * (128 * 128)) := rfl
  have hhist := histc_eq_counts d h.2.1 h.2.2.2.2.2.2.2.2
  intro c hc
  rw [hofft, hhist]
  cases c with
  | zero => simp
  | succ c =>
    have hcB : c < d.cols / 128 := by omega
    rw [List.getD_cons_succ, getD_map_mul (128 * 128)]
    rw [cumsum_getD _ c (by simpa using hcB)]
    rw [← List.map_take, List.take_range]
    rw [Nat.min_eq_left (by omega)]
    rw [sum_range_count d.indices (c + 1)]

theorem offsets_t_getLast (d : BlockSparse) (h : ValidDesc d) :
    (transposeView d).offsets_t.getLast? =
      some (d.indices.length * (128 * 128)) := by
  have hofft : (transposeView d).offsets_t =
      0 :: (cumsum (histc (sputnikColIndices 128 d.indices) (d.cols / 128) 0
        d.cols)).map (fun v => v * (128 * 128)) := rfl
  have h9 := h.2.2.2.2.2.2.2.2
  have hhist := histc_eq_counts d h.2.1 h9
  rw [hofft, hhist]
  by_cases hB : d.cols / 128 = 0
  · have hI : d.indices = [] :=
      List.eq_nil_iff_forall_not_mem.2 (fun c hc => by have := h9 c hc; omega)
    rw [hB, hI]
    simp [cumsum, cumsumFrom]
  · have hne : (List.range (d.cols / 128)).map
        (fun b => d.indices.countP (fun x => x == b)) ≠ [] := by
      intro heq
      have := congrArg List.length heq
      simp at this
      omega
    have hlenpos : 0 < ((cumsum ((List.range (d.cols / 128)).map
        (fun b => d.indices.countP (fun x => x == b)))).map
        (fun v => v * (128 * 128))).length := by
      rw [List.length_map, cumsum_length, List.length_map, List.length_range]
      omega
    rw [getLast?_cons_ne_nil _ _ (List.length_pos.1 hlenpos)]
    rw [List.getLast?_map, cumsum_getLast _ hne]
    rw [sum_range_count d.indices (d.cols / 128)]
    have hall : d.indices.countP (fun c => c < d.cols / 128) = d.indices.length :=
      List.countP_eq_length.2 (fun c hc => by simpa using h9 c hc)
    rw [hall]
    rfl

theorem scenarioDesc_valid : ValidDesc scenarioDesc := by
  refine ⟨rfl, rfl, by decide, by decide, rfl, rfl, rfl, ?_, by decide⟩
  exact List.chain'_cons.2 ⟨by omega, List.chain'_cons.2 ⟨by omega,
    List.chain'_singleton 2⟩⟩

/-- C2: for every valid descriptor, the permutation computed in `transpose`
enumerates the stored blocks primarily by ascending block-column and within
one block-column by ascending block-row (the effect of sorting the composite
key `col * 128 + row`): the permuted pattern is lexicographically sorted, is a
permutation of the stored pattern, and `indices_t` is exactly its block-row
component (in the element-offset buffer convention). -/
theorem transpose_sorts_columns (d : BlockSparse) (h : ValidDesc d) :
    (permutedPattern d).Pairwise colRowLe ∧
    List.Perm (permutedPattern d) (blockPattern d) ∧
    (transposeView d).indices_t = (permutedPattern d).map (fun p => p.1 * 128) := by
  have hlen := validDesc_rowlen d h
  have hsort := permutedPattern_eq_sorted d hlen
  refine ⟨?_, ?_, indices_t_eq d⟩
  · rw [hsort]
    exact sortedPattern_colRowLe d h
  · rw [hsort]
    exact sortedPattern_perm d

/-- C2, witness: the spec's scenario descriptor is valid and satisfies the
ordering properties. -/
theorem transpose_sorts_columns_witness :
    (permutedPattern scenarioDesc).Pairwise colRowLe ∧
    List.Perm (permutedPattern scenarioDesc) (blockPattern scenarioDesc) ∧
    (transposeView scenarioDesc).indices_t =
      (permutedPattern scenarioDesc).map (fun p => p.1 * 128) :=
  transpose_sorts_columns scenarioDesc scenarioDesc_valid

/-- C6: for every valid descriptor, `offsets_t` has length `cols/128 + 1`, is
non-decreasing, starts at 0 and ends at `nnz_blocks * 128²`. -/
theorem offsets_t_wellformed (d : BlockSparse) (h : ValidDesc d) :
    (transposeView d).offsets_t.length = d.cols / 128 + 1 ∧
    List.Chain' (· ≤ ·) (transposeView d).offsets_t ∧
    (transposeView d).offsets_t.head? = some 0 ∧
    (transposeView d).offsets_t.getLast? =
      some (d.indices.length * (128 * 128)) := by
  have hofft : (transposeView d).offsets_t =
      0 :: (cumsum (histc (sputnikColIndices 128 d.indices) (d.cols / 128) 0
        d.cols)).map (fun v => v * (128 * 128)) := rfl
  refine ⟨?_, ?_, ?_, offsets_t_getLast d h⟩
  · rw [hofft, List.length_cons, List.length_map, cumsum_length, histc_length]
  · rw [hofft, List.chain'_cons']
    refine ⟨fun y _ => Nat.zero_le y, ?_⟩
    rw [List.chain'_map]
    refine (cumsumFrom_chain 0 _).imp ?_
    intro a b hab
    omega
  · rw [hofft, List.head?_cons]

/-- C6, witness: the spec's scenario descriptor. -/
theorem offsets_t_wellformed_witness :
    (transposeView scenarioDesc).offsets_t.length = scenarioDesc.cols / 128 + 1 ∧
    List.Chain' (· ≤ ·) (transposeView scenarioDesc).offsets_t ∧
    (transposeView scenarioDesc).offsets_t.head? = some 0 ∧
    (transposeView scenarioDesc).offsets_t.getLast? =
      some (scenarioDesc.indices.length * (128 * 128)) :=
  offsets_t_wellformed scenarioDesc scenarioDesc_valid

/-- C5: for every valid descriptor, reading the transpose view as a compressed
block-column representation yields exactly the original multiset of
(block-row, block-column) memberships — no block gained, lost or
duplicated. -/
theorem transpose_preserves_blocks (d : BlockSparse) (h : ValidDesc d) :
    List.Perm
      (readTransposed (d.cols / 128) 128 (transposeView d).offsets_t
        (transposeView d).indices_t)
      (blockPattern d) := by
  have hlen := validDesc_rowlen d h
  have hscol := sortedPattern_colLe d h
  have hcolb := sortedPattern_colBound d h
  have hidx : (transposeView d).indices_t =
      (sortedPattern d).map (fun p => p.1 * 128) := by
    rw [indices_t_eq d, permutedPattern_eq_sorted d hlen]
  have hread : readTransposed (d.cols / 128) 128 (transposeView d).offsets_t
      (transposeView d).indices_t =
      ((List.range (d.cols / 128)).map (fun c =>
        (((transposeView d).indices_t.drop
            ((transposeView d).offsets_t.getD c 0 / (128 * 128))).take
          ((transposeView d).offsets_t.getD (c + 1) 0 / (128 * 128) -
            (transposeView d).offsets_t.getD c 0 / (128 * 128))).map
          (fun v => (v / 128, c)))).flatten := rfl
  have hslice : ∀ c ∈ List.range (d.cols / 128),
      (((transposeView d).indices_t.drop
          ((transposeView d).offsets_t.getD c 0 / (128 * 128))).take
        ((transposeView d).offsets_t.getD (c + 1) 0 / (128 * 128) -
          (transposeView d).offsets_t.getD c 0 / (128 * 128))).map
        (fun v => (v / 128, c)) =
      (sortedPattern d).filter (fun p => p.2 == c) := by
    intro c hcmem
    have hcB : c < d.cols / 128 := List.mem_range.1 hcmem
    have hstart : (transposeView d).offsets_t.getD c 0 / (128 * 128) =
        d.indices.countP (fun x => x < c) := by
      rw [offsets_t_getD d h c (by omega)]
      exact Nat.mul_div_cancel _ (by omega)
    have hnext : (transposeView d).offsets_t.getD (c + 1) 0 / (128 * 128) =
        d.indices.countP (fun x => x < c + 1) := by
      rw [offsets_t_getD d h (c + 1) (by omega)]
      exact Nat.mul_div_cancel _ (by omega)
    rw [hstart, hnext, hidx]
    rw [countP_lt_succ d.indices c, Nat.add_sub_cancel_left]
    have hc1 : d.indices.countP (fun x => x < c) =
        ((sortedPattern d).filter (fun p => p.2 < c)).length := by
      rw [← List.countP_eq_length_filter]
      exact (sortedPattern_countP d hlen (fun x => x < c)).symm
    have hc2 : d.indices.countP (fun x => x == c) =
        ((sortedPattern d).filter (fun p => p.2 == c)).length := by
      rw [← List.countP_eq_length_filter]
      exact (sortedPattern_countP d hlen (fun x => x == c)).symm
    rw [hc1, hc2]
    rw [← List.map_drop, ← List.map_take]
    have hdrop : (sortedPattern d).drop
        (((sortedPattern d).filter (fun p => p.2 < c)).length) =
        (sortedPattern d).filter (fun p => c ≤ p.2) := by
      nth_rewrite 2 [sorted_filter_split c (sortedPattern d) hscol]
      exact List.drop_left _ _
    rw [hdrop]
    have hm' : (sortedPattern d).filter (fun p => c ≤ p.2) =
        (sortedPattern d).filter (fun p => p.2 == c) ++
          ((sortedPattern d).filter (fun p => c ≤ p.2)).filter
            (fun p => c + 1 ≤ p.2) := by
      have hmeq : ((sortedPattern d).filter (fun p => c ≤ p.2)).filter
          (fun p => p.2 < c + 1) =
          (sortedPattern d).filter (fun p => p.2 == c) := by
        rw [List.filter_filter]
        refine List.filter_congr ?_
        intro p _
        rw [Bool.eq_iff_iff]
        simp only [Bool.and_eq_true, decide_eq_true_eq, beq_iff_eq]
        omega
      rw [← hmeq]
      exact sorted_filter_split (c + 1) _ (hscol.filter _)
    rw [hm', List.take_left]
    rw [List.map_map]
    have hid : ∀ p ∈ (sortedPattern d).filter (fun p => p.2 == c),
        ((fun v => (v / 128, c)) ∘ (fun p => p.1 * 128)) p = p := by
      intro p hp
      have hpc : p.2 = c := by simpa using (List.mem_filter.1 hp).2
      simp only [Function.comp]
      rw [Nat.mul_div_cancel p.1 (by omega)]
      rw [← hpc]
    rw [List.map_congr_left hid]
    exact List.map_id' _
  rw [hread, List.map_congr_left hslice]
  rw [← sorted_eq_flatten_filter (d.cols / 128) (sortedPattern d) hscol hcolb]
  exact sortedPattern_perm d

/-- C5, witness: the spec's scenario descriptor. -/
theorem transpose_preserves_blocks_witness :
    List.Perm
      (readTransposed (scenarioDesc.cols / 128) 128
        (transposeView scenarioDesc).offsets_t
        (transposeView scenarioDesc).indices_t)
      (blockPattern scenarioDesc) :=
  transpose_preserves_blocks scenarioDesc scenarioDesc_valid

/-- C1: on the spec's scenario (`rows = cols = 256`, `offsets = [0,1,2]`,
`indices = [1,0]`, i.e. blocks at (0,1) and (1,0)), the synthesizer returns
`offsets_t = [0, 16384, 32768]` (the pointers `[0,1,2]` scaled by
`block_size² = 16384`) and `indices_t` listing block-rows 1 then 0 — stored,
per the element-offset buffer convention, as `[1*128, 0*128]`. -/
theorem transpose_scenario :
    transposeView scenarioDesc =
      ⟨[1 * 128, 0 * 128], [0, 16384, 32768], [32768, 0]⟩ ∧
    (transposeView scenarioDesc).indices_t.map (fun v => v / 128) = [1, 0] := by
  constructor <;> decide

/-- C3 counterexample: a `dss` sparse operand declared `8320 × 128` with
transpose flag `true` has effective (post-normalization) shape `128 × 8320`;
the claim's formula over the effective orientation gives
`ceil(65/64) * 1 * 8 = 16` bytes, but the code allocates
`ceil(1/64) * 65 * 8 = 520` bytes. -/
theorem dss_bitmask_not_effective :
    ¬ (dssBitmaskBytes (8320, 128) true =
        specBitmaskBytes (standardize_shape (8320, 128) true).1
          (standardize_shape (8320, 128) true).2) := by
  decide

/-- C3 amended: the bitmask workspace of a `dss` operand is
`ceil(block_cols/64) * block_rows * 8` bytes computed in the operand's native
(declared, pre-normalization) orientation — the standardization swap and the
swap inside `allocate_bitmask` cancel — and `size_in_bytes` is monotone
non-decreasing in both block dimensions. -/
theorem dss_bitmask_native_and_monotone :
    (∀ (shape : Nat × Nat) (t : Bool),
      dssBitmaskBytes shape t = specBitmaskBytes shape.1 shape.2) ∧
    (∀ r1 r2 c1 c2 : Nat, r1 ≤ r2 → c1 ≤ c2 →
      size_in_bytes r1 c1 ≤ size_in_bytes r2 c2) := by
  constructor
  · intro shape t
    obtain ⟨r, c⟩ := shape
    cases t <;> rfl
  · intro r1 r2 c1 c2 hr hc
    unfold size_in_bytes
    have h1 : (c1 + 64 - 1) / 64 ≤ (c2 + 64 - 1) / 64 :=
      Nat.div_le_div_right (by omega)
    exact Nat.mul_le_mul (Nat.mul_le_mul h1 hr) (le_refl 8)

/-- C3 amended, witness: evaluation at concrete sizes. -/
theorem dss_bitmask_native_and_monotone_witness :
    dssBitmaskBytes (256, 256) false = specBitmaskBytes 256 256 ∧
    size_in_bytes 1 1 ≤ size_in_bytes 2 65 :=
  ⟨dss_bitmask_native_and_monotone.1 (256, 256) false,
   dss_bitmask_native_and_monotone.2 1 2 1 65 (by decide) (by decide)⟩

/-- C4: the transpose-metadata necessity rule.  `dsd` and `ssd` allocate the
three derived buffers and call the extended entry point exactly when the left
sparse operand's flag is true, and otherwise call the plain entry point with
no allocation; `dds` does so exactly when the right sparse operand's flag is
false; `dss` allocates both bitmasks before any transpose-view buffer and
calls the extended entry point unconditionally, never the plain one. -/
theorem dispatch_rule :
    (∀ t : Bool,
      ((KStep.kernelEx ∈ dsdTrace true true t) ↔ t = true) ∧
      ((KStep.kernelPlain ∈ dsdTrace true true t) ↔ t = false) ∧
      allocsOf (dsdTrace true true t) = (if t then transposeViewAllocs else []) ∧
      ((KStep.kernelEx ∈ ssdTrace true true t) ↔ t = true) ∧
      ((KStep.kernelPlain ∈ ssdTrace true true t) ↔ t = false) ∧
      allocsOf (ssdTrace true true t) = (if t then transposeViewAllocs else []) ∧
      ((KStep.kernelEx ∈ ddsTrace true true t) ↔ t = false) ∧
      ((KStep.kernelPlain ∈ ddsTrace true true t) ↔ t = true) ∧
      allocsOf (ddsTrace true true t) = (if t then [] else transposeViewAllocs)) ∧
    (∀ tl tr : Bool,
      KStep.kernelEx ∈ dssTrace true true tl tr ∧
      ¬ KStep.kernelPlain ∈ dssTrace true true tl tr ∧
      bitmasksFirst (dssTrace true true tl tr) = true) := by
  constructor
  · intro t; cases t <;> decide
  · intro tl tr; cases tl <;> cases tr <;> decide

/-- C7: the shape normalizer is self-inverse — normalizing twice with flag
`true` restores the original (rows, cols), and normalizing with flag `false`
changes nothing. -/
theorem standardize_shape_self_inverse :
    ∀ s : Nat × Nat,
      standardize_shape (standardize_shape s true) true = s ∧
      standardize_shape s false = s := by
  intro ⟨r, c⟩
  exact ⟨rfl, rfl⟩

/-- C8: in all five operations and on every path, no derived buffer or bitmask
workspace is allocated and no kernel is invoked before the ValidMatmul check
has passed; in particular, when validation fails (or earlier argument checks
fail) nothing is allocated and the kernel is never called. -/
theorem validation_before_allocation :
    ∀ (argsOk matmulOk t tl tr : Bool),
      noWorkBeforeCheck (dsdTrace argsOk matmulOk t) = true ∧
      noWorkBeforeCheck (ddsTrace argsOk matmulOk t) = true ∧
      noWorkBeforeCheck (sddTrace argsOk matmulOk) = true ∧
      noWorkBeforeCheck (ssdTrace argsOk matmulOk t) = true ∧
      noWorkBeforeCheck (dssTrace argsOk matmulOk tl tr) = true ∧
      (dsdTrace argsOk false t).all (fun s => !isAlloc s && !isKernel s) = true ∧
      (ddsTrace argsOk false t).all (fun s => !isAlloc s && !isKernel s) = true ∧
      (sddTrace argsOk false).all (fun s => !isAlloc s && !isKernel s) = true ∧
      (ssdTrace argsOk false t).all (fun s => !isAlloc s && !isKernel s) = true ∧
      (dssTrace argsOk false tl tr).all (fun s => !isAlloc s && !isKernel s) = true := by
  intro argsOk matmulOk t tl tr
  cases argsOk <;> cases matmulOk <;> cases t <;> cases tl <;> cases tr <;> decide

/-- C9: each of `dsd`, `dds`, `ssd`, `dss` writes the normalized dimensions
back into the flagged sparse operand's host shape tensor in place — swapped
exactly when the flag is true — and writes nothing into the caller's data,
offsets or indices buffers (for `ssd`, the sparse output is untouched by this
layer). -/
theorem host_writes_shape_only :
    ∀ (lhs rhs : SparseBuffers) (t tl tr : Bool),
      dsdHostWrites lhs t =
        { lhs with shape := if t then (lhs.shape.2, lhs.shape.1) else lhs.shape } ∧
      ddsHostWrites rhs t =
        { rhs with shape := if t then (rhs.shape.2, rhs.shape.1) else rhs.shape } ∧
      ssdHostWrites lhs rhs t =
        ({ lhs with shape := if t then (lhs.shape.2, lhs.shape.1) else lhs.shape },
         rhs) ∧
      dssHostWrites lhs rhs tl tr =
        ({ lhs with shape := if tl then (lhs.shape.2, lhs.shape.1) else lhs.shape },
         { rhs with shape := if tr then (rhs.shape.2, rhs.shape.1) else rhs.shape }) := by
  intro lhs rhs t tl tr
  refine ⟨?_, ?_, ?_, ?_⟩ <;> cases t <;> cases tl <;> cases tr <;> rfl

/-- C10: `validate_sparse` accepts a quadruple exactly when the device, rank
and dtype checks pass and the last two dimensions of `data` both equal 128;
the CSR invariants of the contents are never inspected (the predicate does not
even read them), so the concrete quadruple below — whose contents violate the
pointer length, monotonicity, head, index-range and divisibility invariants —
is accepted. -/
theorem validate_sparse_no_csr_checks :
    (∀ shape data offsets indices : TensorMeta,
      validate_sparse shape data offsets indices = true ↔
        (shape.isCuda = false ∧ numel shape = 2 ∧ shape.dtype = DType.int ∧
         data.isCuda = true ∧ ndimension data = 3 ∧ data.dtype = DType.half ∧
         offsets.isCuda = true ∧ ndimension offsets = 1 ∧ offsets.dtype = DType.int ∧
         indices.isCuda = true ∧ ndimension indices = 1 ∧
         indices.dtype = DType.short ∧
         data.sizes.getD 1 0 = 128 ∧ data.sizes.getD 2 0 = 128)) ∧
    validate_sparse ⟨false, [2], DType.int⟩ ⟨true, [1, 128, 128], DType.half⟩
      ⟨true, [2], DType.int⟩ ⟨true, [1], DType.short⟩ = true ∧
    ¬ csrInvariants 100 300 [3, 1] [7] := by
  refine ⟨?_, by decide, ?_⟩
  · intro shape data offsets indices
    simp only [validate_sparse, validate_shape, Bool.and_eq_true, beq_iff_eq,
      Bool.not_eq_true']
    constructor <;> intro h <;> simp_all <;> omega
  · intro h
    exact absurd h.2.2.2.2.2.1 (by decide)
